import Mathlib

/-!
Verification development for the wikicrawl repository.

The Go sources are shallowly embedded as follows.

* Go `string` values are modelled as `List Char` (`GoStr`).  Go strings are
  byte strings; the embedding represents each byte as a `Char` with code
  below 256.  Codepoints at or above 256 (which Go would store as several
  UTF-8 bytes) are carried through percent-encoding unchanged; this keeps
  the encode/decode round trip of the model aligned with Go's byte-level
  round trip on the representable strings.
* `url.URL` is modelled by the structure `GoUrl` holding the fields the
  crawler reads or writes (`Scheme`, `Opaque`, `Host`, `Path`,
  `ForceQuery`, `RawQuery`, `Fragment`).  The `User` (userinfo) field is
  omitted: the crawler never constructs it, and it is modelled as always
  nil in `ResolveReference` and `String`.
* The pieces of Go's `net/url` package that the crawler calls
  (`ResolveReference`, `resolvePath`, `ParseQuery`, `QueryEscape`,
  `QueryUnescape`, `Values.Encode`, `URL.String`) are translated from the
  package sources of the Go 1.9 era, matching the repository's vintage.
  `EscapedPath`/`setPath` are modelled as the identity on the stored path
  and host escaping in `URL.String` as the identity on the stored host.
* Mutexes disappear: each `LinkSet` operation is one atomic action, which
  is exactly what the `sync.RWMutex` in `link.go` provides.
-/

/-- Go `string`, as a list of byte-valued characters. -/
abbrev GoStr := List Char

/-- Literal helper: a Lean string literal viewed as a Go string. -/
def str (s : String) : GoStr := s.toList

/-- One character of Go's `strings.ToLower`, restricted to ASCII
(the only case the crawler's URLs exercise). -/
def lowerChar (c : Char) : Char :=
  if 65 ≤ c.toNat ∧ c.toNat ≤ 90 then Char.ofNat (c.toNat + 32) else c

/-- Go `strings.ToLower` on an ASCII string. -/
def toLowerStr (s : GoStr) : GoStr := s.map lowerChar

/-- Go `ishex`. -/
def isHexDigit (c : Char) : Bool :=
  ('0' ≤ c ∧ c ≤ '9') ∨ ('a' ≤ c ∧ c ≤ 'f') ∨ ('A' ≤ c ∧ c ≤ 'F')

/-- Go `unhex`. -/
def hexVal (c : Char) : Nat :=
  if '0' ≤ c ∧ c ≤ '9' then c.toNat - '0'.toNat
  else if 'a' ≤ c ∧ c ≤ 'f' then c.toNat - 'a'.toNat + 10
  else if 'A' ≤ c ∧ c ≤ 'F' then c.toNat - 'A'.toNat + 10
  else 0

/-- Upper-case hex digit of a value below 16, as in Go's `escape`
(`upperhex` table). -/
def hexUpper (n : Nat) : Char :=
  if n < 10 then Char.ofNat ('0'.toNat + n) else Char.ofNat ('A'.toNat + n - 10)

/-- Go `shouldEscape(c, encodeQueryComponent)`: everything except ASCII
alphanumerics and `-_.~` must be escaped in a query component. -/
def shouldEscapeQuery (c : Char) : Bool :=
  ¬ (('a' ≤ c ∧ c ≤ 'z') ∨ ('A' ≤ c ∧ c ≤ 'Z') ∨ ('0' ≤ c ∧ c ≤ '9') ∨
     c = '-' ∨ c = '_' ∨ c = '.' ∨ c = '~')

/-- Go `url.QueryEscape`: space becomes `+`, characters needing escape
become `%XX` with upper-case hex.  Codepoints at or above 256 pass through
unchanged (see the module comment). -/
def queryEscapeList : GoStr → GoStr
  | [] => []
  | c :: rest =>
    if c = ' ' then '+' :: queryEscapeList rest
    else if shouldEscapeQuery c ∧ c.toNat < 256 then
      '%' :: hexUpper (c.toNat / 16) :: hexUpper (c.toNat % 16) :: queryEscapeList rest
    else c :: queryEscapeList rest

/-- Go `url.QueryUnescape`: `+` becomes space, `%XX` decodes a byte, a `%`
that is not followed by two hex digits is an error (`none`). -/
def queryUnescapeList : GoStr → Option GoStr
  | [] => some []
  | c :: rest =>
    if c = '+' then (queryUnescapeList rest).map (fun r => ' ' :: r)
    else if c = '%' then
      match rest with
      | a :: b :: rest2 =>
        if isHexDigit a ∧ isHexDigit b then
          (queryUnescapeList rest2).map (fun r => Char.ofNat (16 * hexVal a + hexVal b) :: r)
        else none
      | _ => none
    else (queryUnescapeList rest).map (fun r => c :: r)

/-- Go `strings.Split(s, sep)` for a one-character separator. -/
def splitOnChar (sep : Char) : GoStr → List GoStr
  | [] => [[]]
  | c :: rest =>
    if c = sep then [] :: splitOnChar sep rest
    else
      match splitOnChar sep rest with
      | [] => [[c]]
      | s :: ss => (c :: s) :: ss

/-- Go `strings.Cut(s, sep)` for a one-character separator, dropping the
`found` flag (`ParseQuery` ignores it for the `=` cut, and the `&` cut is
rendered through `splitOnChar`). -/
def cutAtChar (sep : Char) : GoStr → GoStr × GoStr
  | [] => ([], [])
  | c :: rest =>
    if c = sep then ([], rest)
    else
      let p := cutAtChar sep rest
      (c :: p.1, p.2)

/-- One pass of the loop body of Go `url.parseQuery` over the `&`-separated
segments: a segment containing `;` or failing to unescape is an error,
an empty segment is skipped, otherwise the segment is cut at the first `=`
and both sides are query-unescaped.  Go accumulates the error and keeps
going, but `WikiPageTitle` panics whenever the returned error is non-nil,
so any failing segment makes the whole parse `none` here. -/
def parseQuerySegs : List GoStr → Option (List (GoStr × GoStr))
  | [] => some []
  | seg :: rest =>
    if ';' ∈ seg then none
    else if seg = [] then parseQuerySegs rest
    else
      let kv := cutAtChar '=' seg
      match queryUnescapeList kv.1, queryUnescapeList kv.2 with
      | some k, some v => (parseQuerySegs rest).map (fun ps => (k, v) :: ps)
      | _, _ => none

/-- Go `url.ParseQuery`, as the ordered list of key/value pairs.  Go's
`strings.Cut` loop visits exactly the `&`-separated segments (a trailing
empty segment is skipped by the empty-key check either way).  The
`url.Values` map is recovered from the pair list by grouping equal keys in
order of appearance (`findTitleValues` below does this for `title`). -/
def parseQueryPairs (q : GoStr) : Option (List (GoStr × GoStr)) :=
  parseQuerySegs (splitOnChar '&' q)

/-- The `url.Values` entry for the key `title`: all values bound to
`title`, in order of appearance (Go appends to `m[key]`). -/
def findTitleValues (ps : List (GoStr × GoStr)) : List GoStr :=
  ps.filterMap (fun p => if p.1 = str "title" then some p.2 else none)

/-- Position just after the last `/` of a string, 0 when there is none:
Go's `strings.LastIndex(base, "/") + 1`. -/
def lastSlashPos : GoStr → Nat
  | [] => 0
  | c :: rest =>
    let r := lastSlashPos rest
    if r = 0 then (if c = '/' then 1 else 0) else r + 1

/-- `strings.Join(parts, "/")`. -/
def joinSlash : List GoStr → GoStr
  | [] => []
  | [s] => s
  | s :: ss => s ++ '/' :: joinSlash ss

/-- Go `strings.TrimPrefix(s, "/")`: drop one leading slash if present. -/
def trimSlash (l : GoStr) : GoStr :=
  if l.head? = some '/' then l.tail else l

/-- The dot-segment loop body of Go 1.9 `url.resolvePath`: `.` is dropped,
`..` pops the last collected segment, anything else is kept. -/
def removeDotsStep (dst : List GoStr) (elem : GoStr) : List GoStr :=
  if elem = str "." then dst
  else if elem = str ".." then dst.dropLast
  else dst ++ [elem]

/-- The segment-cleaning half of Go 1.9 `url.resolvePath`, applied to the
already-joined `full` string. -/
def resolvePathCore (full : GoStr) : GoStr :=
  if full = [] then []
  else
    let src := splitOnChar '/' full
    let dst := src.foldl removeDotsStep []
    let dst := if src.getLastD [] = str "." ∨ src.getLastD [] = str ".." then dst ++ [[]] else dst
    '/' :: trimSlash (joinSlash dst)

/-- Go 1.9 `url.resolvePath(base, ref)`. -/
def resolvePath (base ref : GoStr) : GoStr :=
  let full :=
    if ref = [] then base
    else if ref.head? ≠ some '/' then base.take (lastSlashPos base) ++ ref
    else ref
  resolvePathCore full

/-- Go `url.URL`, restricted to the fields the crawler exercises (userinfo
omitted, raw path/fragment identified with their decoded forms).  The
field `opq` models `URL.Opaque`, renamed because its Go name is a Lean
keyword. -/
structure GoUrl where
  scheme : GoStr
  opq : GoStr
  host : GoStr
  path : GoStr
  forceQuery : Bool
  rawQuery : GoStr
  fragment : GoStr
deriving DecidableEq, Repr

/-- Go 1.9 `(*url.URL).ResolveReference(ref)` with receiver `u`,
userinfo omitted. -/
def resolveReference (u ref : GoUrl) : GoUrl :=
  let url := ref
  let url := if ref.scheme = [] then { url with scheme := u.scheme } else url
  if ref.scheme ≠ [] ∨ ref.host ≠ [] then
    { url with path := resolvePath ref.path [] }
  else if ref.opq ≠ [] then
    { url with host := [], path := [] }
  else
    let url :=
      if ref.path = [] ∧ ¬ ref.forceQuery ∧ ref.rawQuery = [] then
        { url with rawQuery := u.rawQuery,
                   fragment := if ref.fragment = [] then u.fragment else ref.fragment }
      else url
    { url with host := u.host, path := resolvePath u.path ref.path }

/-- Go 1.9 `(*url.URL).String()`, userinfo omitted and host escaping taken
as the identity. -/
def urlString (u : GoUrl) : GoStr :=
  (if u.scheme ≠ [] then u.scheme ++ [':'] else []) ++
  (if u.opq ≠ [] then u.opq
   else
     (if (u.scheme ≠ [] ∨ u.host ≠ []) ∧ (u.host ≠ [] ∨ u.path ≠ []) then str "//" ++ u.host
      else if u.scheme ≠ [] ∨ u.host ≠ [] then u.host
      else []) ++
     (if u.path ≠ [] ∧ u.path.head? ≠ some '/' ∧ u.host ≠ [] then '/' :: u.path else u.path)) ++
  (if u.forceQuery ∨ u.rawQuery ≠ [] then '?' :: u.rawQuery else []) ++
  (if u.fragment ≠ [] then '#' :: u.fragment else [])

/-- Go `strings.Contains(s, sub)`. -/
def goContains (s sub : GoStr) : Bool := decide (sub <:+: s)

/-- A logical URL string (`type Link = string` in link.go). -/
abbrev Link := GoStr

/-- The `ignore` list of crawler.go: Wikimedia namespaces to skip. -/
def ignoreList : List GoStr :=
  [str "User:", str "User_talk:",
   str "Help:", str "Help_talk:",
   str "Talk:", str "File_talk:", str "Category_talk:",
   str "Create_Article", str "Special:"]

/-- `WikiPageTitle` of crawler.go: parse the raw query; a parse error is a
panic (`none`); otherwise the first `title` value, or the empty string when
the key is absent. -/
def wikiPageTitle (link : GoUrl) : Option GoStr :=
  match parseQueryPairs link.rawQuery with
  | none => none
  | some ps =>
    match findTitleValues ps with
    | [] => some []
    | t :: _ => some t

/-- `NormalizeUrl(link, base)` of crawler.go.  `none` is the panic raised
by the inner `WikiPageTitle` call on an unparseable query.  The query
rewrite is `url.Values` with the single key `title`, encoded; `Encode`
yields `title=` followed by the query-escaped value. -/
def normalizeUrl (link base : GoUrl) : Option GoUrl :=
  let clean := resolveReference base link
  match wikiPageTitle clean with
  | none => none
  | some title =>
    let clean :=
      if title.length ≠ 0 then { clean with rawQuery := str "title=" ++ queryEscapeList title }
      else clean
    some { clean with fragment := [],
                      scheme := toLowerStr base.scheme,
                      host := toLowerStr clean.host }

/-- `(*Crawler).ValidateLink(link)` of crawler.go with crawler base `base`.
`none` is the panic raised by `WikiPageTitle` on an unparseable query
(reached only after the same-site containment check passes). -/
def validateLink (base link : GoUrl) : Option Bool :=
  if ¬ goContains (urlString link) (urlString base) then some false
  else
    match wikiPageTitle link with
    | none => none
    | some title =>
      if title.length > 0 ∧ ignoreList.any (fun trivial => trivial.isPrefixOf title) then
        some false
      else some true

/-- `(*LinkSet).Add` of link.go: first-writer-wins insertion; the map plus
mutex is modelled as one atomic update of a membership list.  Returns the
new contents and `!found`. -/
def LinkSet.add (ls : List Link) (link : Link) : List Link × Bool :=
  if link ∈ ls then (ls, false) else (ls ++ [link], true)

/-- `(*LinkSet).Contains` of link.go. -/
def LinkSet.contains (ls : List Link) (link : Link) : Bool := link ∈ ls

/-- Outcome of `c.Client.Get(source)`: a transport error, or a response
with its HTTP status, its final (post-redirect) URL string
`resp.Request.URL.String()`, and the raw href values `ParseLinks` extracts
from the body.  The HTTP client and HTML tokenizer are external
collaborators, so they enter the model as this oracle. -/
inductive FetchOutcome
  | failure
  | response (status : Nat) (finalUrl : Link) (rawLinks : List Link)
deriving DecidableEq, Repr

/-- The crawler's environment: its base URL and the external fetch and
URL-parse collaborators (`url.Parse` returning `none` on a parse error). -/
structure FollowEnv where
  base : GoUrl
  fetch : Link → FetchOutcome
  parse : Link → Option GoUrl

/-- The two shared result sets of `CrawlResult`. -/
structure SeqState where
  visited : List Link
  broken : List Link
deriving DecidableEq, Repr

/-- The per-href loop at the end of `FollowLink`: parse failures go to
Broken, normalized links that validate and are not yet in Visited are
submitted as new work (collected in the second component).  `none` is a
panic inside `NormalizeUrl` or `ValidateLink`. -/
def processRaws (env : FollowEnv) (st : SeqState) (work : List Link) :
    List Link → Option (SeqState × List Link)
  | [] => some (st, work)
  | raw :: rest =>
    match env.parse raw with
    | none => processRaws env { st with broken := (LinkSet.add st.broken raw).1 } work rest
    | some result =>
      match normalizeUrl result env.base with
      | none => none
      | some href =>
        match validateLink env.base href with
        | none => none
        | some ok =>
          if ok = true ∧ ¬ LinkSet.contains st.visited (urlString href) = true then
            processRaws env st (work ++ [urlString href]) rest
          else processRaws env st work rest

/-- `(*Crawler).FollowLink(source, queue)` of crawler.go, sequentially:
the returned list holds the links handed to `queue.AddWork`, and `none` is
an unrecovered panic.  Step order follows the source: claim the source in
Visited (bail out when already present), fetch, record transport errors
and non-200 statuses in Broken, claim a differing post-redirect URL in
Visited (bail out when already present), then process the body's hrefs. -/
def followLink (env : FollowEnv) (source : Link) (st : SeqState) :
    Option (SeqState × List Link) :=
  let a1 := LinkSet.add st.visited source
  if a1.2 = false then some (st, [])
  else
    let st := { st with visited := a1.1 }
    match env.fetch source with
    | .failure => some ({ st with broken := (LinkSet.add st.broken source).1 }, [])
    | .response status finalUrl rawLinks =>
      if status ≠ 200 then some ({ st with broken := (LinkSet.add st.broken source).1 }, [])
      else if source ≠ finalUrl then
        let a2 := LinkSet.add st.visited finalUrl
        if a2.2 = false then some (st, [])
        else processRaws env { st with visited := a2.1 } [] rawLinks
      else processRaws env st [] rawLinks

/-- The observable state of a `WorkQueue` for `AddWork`: the
`sync.WaitGroup` counter, the buffered channel contents, and the channel
capacity (`limit` of `NewWorkQueue`). -/
structure WQ where
  counter : Nat
  todo : List Link
  cap : Nat
deriving DecidableEq, Repr

/-- `(*WorkQueue).AddWork(href)` of workqueue.go: `wq.wait.Add(1)` first,
then the select that either places `href` on the channel or panics
`Queue full` after the timeout.  The channel accepts exactly when its
buffer is below capacity; a channel that stays full through the timeout is
the `none` (panic) outcome. -/
def WQ.addWork (q : WQ) (href : Link) : Option WQ :=
  let q := { q with counter := q.counter + 1 }
  if q.todo.length < q.cap then some { q with todo := q.todo ++ [href] }
  else none

/-- Program position of one in-flight unit of work, mirroring the
statement boundaries of `FollowLink` between its atomic actions (the
mutex-protected set operations, the fetch, and the channel/counter
operations of `AddWork`). -/
inductive Phase
  /-- About to run `queue.Result.Visited.Add(source)`. -/
  | claiming
  /-- Won the Visited claim; about to run `c.Client.Get(source)`. -/
  | fetching
  /-- Fetch errored or returned non-200; about to run `Broken.Add(source)`. -/
  | brokenMark
  /-- Got a 200 whose final URL differs; about to run
  `Visited.Add(resp.Request.URL.String())`. -/
  | redirectClaim (finalUrl : Link) (rawLinks : List Link)
  /-- Iterating over the extracted hrefs still to process. -/
  | processing (rawLinks : List Link)
  /-- Inside `AddWork`: `wait.Add(1)` has run, the channel send has not. -/
  | sending (href : Link) (rawLinks : List Link)
  /-- `FollowLink` returned; the deferred `wait.Done()` has not yet run. -/
  | finishing
deriving DecidableEq, Repr

/-- One pulled unit of work and its position inside `FollowLink`. -/
structure Worker where
  link : Link
  phase : Phase
deriving DecidableEq, Repr

/-- The crawl environment: base URL, external fetch and parse
collaborators, and the queue capacity. -/
structure CrawlEnv where
  base : GoUrl
  fetch : Link → FetchOutcome
  parse : Link → Option GoUrl
  cap : Nat

/-- Shared state of a running crawl: the two result sets, the channel
buffer, the `WaitGroup` counter, the in-flight units, the history of
fetches performed (one entry per executed `c.Client.Get`), and whether
`Wait` has closed the channel. -/
structure CrawlState where
  visited : List Link
  broken : List Link
  todo : List Link
  counter : Nat
  workers : List Worker
  fetchLog : List Link
  closed : Bool
deriving DecidableEq, Repr

/-- Branching of `FollowLink` on the fetch outcome (lines 82-110 of
crawler.go): transport error or non-200 leads to `Broken.Add`, a
differing final URL to the redirect re-claim, otherwise straight to the
href loop. -/
def afterFetch (source : Link) : FetchOutcome → Phase
  | .failure => .brokenMark
  | .response status finalUrl rawLinks =>
    if status ≠ 200 then .brokenMark
    else if source ≠ finalUrl then .redirectClaim finalUrl rawLinks
    else .processing rawLinks

/-- Interleaved small-step semantics of the crawl: any worker may take its
next atomic action, a queued link may be pulled by the pool, and `Wait`
closes the channel once the counter is zero.  A panic inside
`NormalizeUrl`/`ValidateLink` (the `none` oracle results) or an `AddWork`
timeout has no transition: the program dies there, so no further state is
reachable along that worker.  The fixed pool size only bounds how many
units can be in flight and is irrelevant to the safety properties proved
below, so pulls are not counted against it. -/
inductive Step (env : CrawlEnv) : CrawlState → CrawlState → Prop
  /-- A pool worker receives `work` from the channel
  (`for work := range wq.todo`). -/
  | pull (s : CrawlState) (l : Link) (rest : List Link) :
      s.todo = l :: rest →
      Step env s { s with todo := rest, workers := s.workers ++ [⟨l, .claiming⟩] }
  /-- `Visited.Add(source)` returns true: the worker proceeds to the fetch. -/
  | claimWin (s : CrawlState) (pre post : List Worker) (l : Link) :
      s.workers = pre ++ ⟨l, .claiming⟩ :: post →
      (LinkSet.add s.visited l).2 = true →
      Step env s { s with visited := (LinkSet.add s.visited l).1,
                          workers := pre ++ ⟨l, .fetching⟩ :: post }
  /-- `Visited.Add(source)` returns false: duplicate, return immediately. -/
  | claimLose (s : CrawlState) (pre post : List Worker) (l : Link) :
      s.workers = pre ++ ⟨l, .claiming⟩ :: post →
      (LinkSet.add s.visited l).2 = false →
      Step env s { s with visited := (LinkSet.add s.visited l).1,
                          workers := pre ++ ⟨l, .finishing⟩ :: post }
  /-- The worker performs `c.Client.Get(source)` and branches on the
  outcome. -/
  | fetchStep (s : CrawlState) (pre post : List Worker) (l : Link) :
      s.workers = pre ++ ⟨l, .fetching⟩ :: post →
      Step env s { s with fetchLog := s.fetchLog ++ [l],
                          workers := pre ++ ⟨l, afterFetch l (env.fetch l)⟩ :: post }
  /-- `Broken.Add(source)` after a failed fetch. -/
  | brokenStep (s : CrawlState) (pre post : List Worker) (l : Link) :
      s.workers = pre ++ ⟨l, .brokenMark⟩ :: post →
      Step env s { s with broken := (LinkSet.add s.broken l).1,
                          workers := pre ++ ⟨l, .finishing⟩ :: post }
  /-- `Visited.Add` of the differing final URL returns true: proceed to the
  href loop. -/
  | redirectWin (s : CrawlState) (pre post : List Worker) (l f : Link) (raws : List Link) :
      s.workers = pre ++ ⟨l, .redirectClaim f raws⟩ :: post →
      (LinkSet.add s.visited f).2 = true →
      Step env s { s with visited := (LinkSet.add s.visited f).1,
                          workers := pre ++ ⟨l, .processing raws⟩ :: post }
  /-- `Visited.Add` of the final URL returns false: stop without extracting. -/
  | redirectLose (s : CrawlState) (pre post : List Worker) (l f : Link) (raws : List Link) :
      s.workers = pre ++ ⟨l, .redirectClaim f raws⟩ :: post →
      (LinkSet.add s.visited f).2 = false →
      Step env s { s with visited := (LinkSet.add s.visited f).1,
                          workers := pre ++ ⟨l, .finishing⟩ :: post }
  /-- The href loop is exhausted; `FollowLink` returns. -/
  | processNil (s : CrawlState) (pre post : List Worker) (l : Link) :
      s.workers = pre ++ ⟨l, .processing []⟩ :: post →
      Step env s { s with workers := pre ++ ⟨l, .finishing⟩ :: post }
  /-- `url.Parse(raw)` fails: `Broken.Add(raw)` and continue the loop. -/
  | processParseFail (s : CrawlState) (pre post : List Worker) (l raw : Link) (rest : List Link) :
      s.workers = pre ++ ⟨l, .processing (raw :: rest)⟩ :: post →
      env.parse raw = none →
      Step env s { s with broken := (LinkSet.add s.broken raw).1,
                          workers := pre ++ ⟨l, .processing rest⟩ :: post }
  /-- The normalized href fails validation, or the `Contains` fast path
  sees it already visited: skip it. -/
  | processSkip (s : CrawlState) (pre post : List Worker) (l raw : Link) (rest : List Link)
      (result href : GoUrl) (ok : Bool) :
      s.workers = pre ++ ⟨l, .processing (raw :: rest)⟩ :: post →
      env.parse raw = some result →
      normalizeUrl result env.base = some href →
      validateLink env.base href = some ok →
      (ok = false ∨ LinkSet.contains s.visited (urlString href) = true) →
      Step env s { s with workers := pre ++ ⟨l, .processing rest⟩ :: post }
  /-- The href validates and is unseen: `AddWork` begins with
  `wq.wait.Add(1)`. -/
  | processStartAdd (s : CrawlState) (pre post : List Worker) (l raw : Link) (rest : List Link)
      (result href : GoUrl) :
      s.workers = pre ++ ⟨l, .processing (raw :: rest)⟩ :: post →
      env.parse raw = some result →
      normalizeUrl result env.base = some href →
      validateLink env.base href = some true →
      LinkSet.contains s.visited (urlString href) = false →
      Step env s { s with counter := s.counter + 1,
                          workers := pre ++ ⟨l, .sending (urlString href) rest⟩ :: post }
  /-- The channel accepts the pending `AddWork` item. -/
  | processSend (s : CrawlState) (pre post : List Worker) (l href : Link) (rest : List Link) :
      s.workers = pre ++ ⟨l, .sending href rest⟩ :: post →
      s.todo.length < env.cap →
      Step env s { s with todo := s.todo ++ [href],
                          workers := pre ++ ⟨l, .processing rest⟩ :: post }
  /-- The deferred `wq.wait.Done()` runs: the unit of work completes. -/
  | doneStep (s : CrawlState) (pre post : List Worker) (l : Link) :
      s.workers = pre ++ ⟨l, .finishing⟩ :: post →
      Step env s { s with counter := s.counter - 1, workers := pre ++ post }
  /-- `Wait()` observes the counter at zero and closes the channel. -/
  | waitClose (s : CrawlState) :
      s.counter = 0 →
      Step env s { s with closed := true }

/-- State of `Crawl` just after `queue.AddWork(source)` seeded the queue:
one submitted unit, nothing pulled, nothing fetched. -/
def initState (seed : Link) : CrawlState :=
  { visited := [], broken := [], todo := [seed], counter := 1,
    workers := [], fetchLog := [], closed := false }

/-- States a crawl from `seed` can reach. -/
inductive Reachable (env : CrawlEnv) (seed : Link) : CrawlState → Prop
  | refl : Reachable env seed (initState seed)
  | tail (s s' : CrawlState) : Reachable env seed s → Step env s s' → Reachable env seed s'

/-- Number of workers currently between `wait.Add(1)` and the channel
send of an `AddWork` call. -/
def sendingCount (ws : List Worker) : Nat :=
  ws.countP (fun w => match w.phase with | .sending _ _ => true | _ => false)

/-- Number of in-flight workers that have won the Visited claim for `u`
but not yet performed the fetch. -/
def fetchingCount (u : Link) (ws : List Worker) : Nat :=
  ws.countP (fun w => w.link = u ∧ w.phase = .fetching)

/-! ## Supporting lemmas -/

theorem charToNat_ofNat_lt (n : Nat) (h : n < 55296) : (Char.ofNat n).toNat = n := by
  have hv : n.isValidChar := Or.inl h
  simp only [Char.ofNat, hv, dite_true, Char.ofNatAux, Char.toNat, UInt32.toNat,
    BitVec.toNat_ofNatLt]

theorem lowerChar_idem (c : Char) : lowerChar (lowerChar c) = lowerChar c := by
  unfold lowerChar
  by_cases h : 65 ≤ c.toNat ∧ c.toNat ≤ 90
  · simp only [h, and_self, if_true]
    have ht : (Char.ofNat (c.toNat + 32)).toNat = c.toNat + 32 :=
      charToNat_ofNat_lt _ (by omega)
    rw [if_neg]
    omega
  · simp only [h, if_false]

theorem toLowerStr_idem (s : GoStr) : toLowerStr (toLowerStr s) = toLowerStr s := by
  induction s with
  | nil => rfl
  | cons c rest ih =>
    simp only [toLowerStr, List.map_cons] at ih ⊢
    rw [lowerChar_idem, ih]

theorem toLowerStr_eq_nil_iff (s : GoStr) : toLowerStr s = [] ↔ s = [] := by
  simp [toLowerStr]

theorem hexUpper_isHexDigit : ∀ m : Nat, m < 16 → isHexDigit (hexUpper m) = true := by decide

theorem hexVal_hexUpper : ∀ m : Nat, m < 16 → hexVal (hexUpper m) = m := by decide

theorem queryUnescapeList_cons_plus (rest : GoStr) :
    queryUnescapeList ('+' :: rest) = (queryUnescapeList rest).map (fun r => ' ' :: r) := by
  rw [queryUnescapeList.eq_def]
  simp

theorem queryUnescapeList_pct (a b : Char) (rest : GoStr) (ha : isHexDigit a = true)
    (hb : isHexDigit b = true) :
    queryUnescapeList ('%' :: a :: b :: rest) =
      (queryUnescapeList rest).map (fun r => Char.ofNat (16 * hexVal a + hexVal b) :: r) := by
  rw [queryUnescapeList.eq_def]
  simp [ha, hb]

theorem queryUnescapeList_cons_other (c : Char) (rest : GoStr) (hp : ¬ c = '+')
    (hpc : ¬ c = '%') :
    queryUnescapeList (c :: rest) = (queryUnescapeList rest).map (fun r => c :: r) := by
  rw [queryUnescapeList.eq_def]
  simp [hp, hpc]

theorem queryUnescape_queryEscape (s : GoStr) :
    queryUnescapeList (queryEscapeList s) = some s := by
  induction s with
  | nil => rfl
  | cons c rest ih =>
    by_cases hsp : c = ' '
    · subst hsp
      rw [show queryEscapeList (' ' :: rest) = '+' :: queryEscapeList rest from rfl,
        queryUnescapeList_cons_plus, ih]
      rfl
    · by_cases hesc : shouldEscapeQuery c = true ∧ c.toNat < 256
      · have h1 : isHexDigit (hexUpper (c.toNat / 16)) = true :=
          hexUpper_isHexDigit _ (by omega)
        have h2 : isHexDigit (hexUpper (c.toNat % 16)) = true :=
          hexUpper_isHexDigit _ (by omega)
        rw [queryEscapeList.eq_def]
        simp only []
        rw [if_neg hsp, if_pos hesc, queryUnescapeList_pct _ _ _ h1 h2, ih,
          hexVal_hexUpper _ (by omega), hexVal_hexUpper _ (by omega),
          Nat.div_add_mod, Char.ofNat_toNat]
        rfl
      · have hp : c ≠ '+' := by rintro rfl; exact hesc ⟨by decide, by decide⟩
        have hpc : c ≠ '%' := by rintro rfl; exact hesc ⟨by decide, by decide⟩
        rw [queryEscapeList.eq_def]
        simp only []
        rw [if_neg hsp, if_neg hesc, queryUnescapeList_cons_other _ _ hp hpc, ih]
        rfl

theorem queryEscapeList_cons (c : Char) (rest : GoStr) :
    queryEscapeList (c :: rest) =
      if c = ' ' then '+' :: queryEscapeList rest
      else if shouldEscapeQuery c = true ∧ c.toNat < 256 then
        '%' :: hexUpper (c.toNat / 16) :: hexUpper (c.toNat % 16) :: queryEscapeList rest
      else c :: queryEscapeList rest := by
  rw [queryEscapeList.eq_def]

theorem hexUpper_not_special :
    ∀ m : Nat, m < 16 → ¬ hexUpper m = '&' ∧ ¬ hexUpper m = ';' ∧ ¬ hexUpper m = '=' := by
  decide

theorem mem_queryEscapeList_ne (t : GoStr) (c : Char) (hc : c ∈ queryEscapeList t) :
    ¬ c = '&' ∧ ¬ c = ';' ∧ ¬ c = '=' := by
  induction t with
  | nil => simp [queryEscapeList] at hc
  | cons d rest ih =>
    by_cases hsp : d = ' '
    · subst hsp
      rw [show queryEscapeList (' ' :: rest) = '+' :: queryEscapeList rest from rfl] at hc
      rcases List.mem_cons.1 hc with h | h
      · subst h; exact ⟨by decide, by decide, by decide⟩
      · exact ih h
    · by_cases hesc : shouldEscapeQuery d = true ∧ d.toNat < 256
      · rw [queryEscapeList_cons, if_neg hsp, if_pos hesc] at hc
        rcases List.mem_cons.1 hc with h | h
        · subst h; exact ⟨by decide, by decide, by decide⟩
        rcases List.mem_cons.1 h with h2 | h2
        · subst h2; exact hexUpper_not_special _ (by omega)
        rcases List.mem_cons.1 h2 with h3 | h3
        · subst h3; exact hexUpper_not_special _ (by omega)
        · exact ih h3
      · rw [queryEscapeList_cons, if_neg hsp, if_neg hesc] at hc
        rcases List.mem_cons.1 hc with h | h
        · subst h
          refine ⟨?_, ?_, ?_⟩ <;> (rintro rfl; exact hesc ⟨by decide, by decide⟩)
        · exact ih h

theorem splitOnChar_of_not_mem (sep : Char) (l : GoStr) (h : sep ∉ l) :
    splitOnChar sep l = [l] := by
  induction l with
  | nil => rfl
  | cons c rest ih =>
    have hc : ¬ c = sep := fun e => h (e ▸ List.mem_cons_self c rest)
    rw [splitOnChar.eq_def]
    simp only [if_neg hc, ih (fun hm => h (List.mem_cons_of_mem _ hm))]

theorem cutAtChar_append (sep : Char) (a b : GoStr) (h : sep ∉ a) :
    cutAtChar sep (a ++ sep :: b) = (a, b) := by
  induction a with
  | nil => simp [cutAtChar]
  | cons c a2 ih =>
    have hc : ¬ c = sep := fun e => h (e ▸ List.mem_cons_self c a2)
    rw [List.cons_append, cutAtChar.eq_def]
    simp only [if_neg hc, ih (fun hm => h (List.mem_cons_of_mem _ hm))]

theorem parseQueryPairs_title_encode (t : GoStr) :
    parseQueryPairs (str "title=" ++ queryEscapeList t) = some [(str "title", t)] := by
  have hamp : ('&' : Char) ∉ str "title=" ++ queryEscapeList t := by
    intro hm
    rcases List.mem_append.1 hm with h | h
    · revert h; decide
    · exact (mem_queryEscapeList_ne t _ h).1 rfl
  have hsemi : ¬ (';' : Char) ∈ str "title=" ++ queryEscapeList t := by
    intro hm
    rcases List.mem_append.1 hm with h | h
    · revert h; decide
    · exact (mem_queryEscapeList_ne t _ h).2.1 rfl
  have hcut : cutAtChar '=' (str "title=" ++ queryEscapeList t) =
      (str "title", queryEscapeList t) := by
    rw [show str "title=" ++ queryEscapeList t = str "title" ++ '=' :: queryEscapeList t
      from rfl]
    exact cutAtChar_append _ _ _ (by decide)
  rw [parseQueryPairs, splitOnChar_of_not_mem _ _ hamp, parseQuerySegs.eq_def]
  simp only [if_neg hsemi, hcut, List.append_eq_nil, reduceCtorEq, and_false, if_false,
    queryUnescape_queryEscape, show queryUnescapeList (str "title") = some (str "title")
      from rfl]
  rfl

theorem splitOnChar_cons (sep c : Char) (rest : GoStr) :
    splitOnChar sep (c :: rest) =
      if c = sep then [] :: splitOnChar sep rest
      else
        match splitOnChar sep rest with
        | [] => [[c]]
        | s :: ss => (c :: s) :: ss := by
  rw [splitOnChar.eq_def]

theorem splitOnChar_ne_nil (sep : Char) (l : GoStr) : splitOnChar sep l ≠ [] := by
  cases l with
  | nil => simp [splitOnChar]
  | cons c rest =>
    rw [splitOnChar.eq_def]
    by_cases h : c = sep
    · simp [h]
    · simp only [if_neg h]
      cases hs : splitOnChar sep rest <;> simp

theorem not_mem_of_mem_splitOnChar (sep : Char) (l : GoStr) (s : GoStr)
    (hs : s ∈ splitOnChar sep l) : sep ∉ s := by
  induction l generalizing s with
  | nil =>
    simp [splitOnChar] at hs
    simp [hs]
  | cons c rest ih =>
    rw [splitOnChar_cons] at hs
    by_cases h : c = sep
    · rw [if_pos h] at hs
      rcases List.mem_cons.1 hs with h1 | h1
      · simp [h1]
      · exact ih s h1
    · rw [if_neg h] at hs
      cases hsplit : splitOnChar sep rest with
      | nil => exact absurd hsplit (splitOnChar_ne_nil sep rest)
      | cons t ts =>
        rw [hsplit] at hs
        rcases List.mem_cons.1 hs with h1 | h1
        · subst h1
          intro hm
          rcases List.mem_cons.1 hm with h2 | h2
          · exact h h2.symm
          · exact ih t (hsplit ▸ List.mem_cons_self t ts) h2
        · exact ih s (hsplit ▸ List.mem_cons_of_mem t h1)

theorem splitOnChar_append_cons (p t : GoStr) (hp : '/' ∉ p) :
    splitOnChar '/' (p ++ '/' :: t) = p :: splitOnChar '/' t := by
  induction p with
  | nil => simp [splitOnChar]
  | cons c p2 ih =>
    have hc : ¬ c = '/' := fun e => hp (e ▸ List.mem_cons_self c p2)
    rw [List.cons_append, splitOnChar.eq_def]
    simp only [if_neg hc, ih (fun hm => hp (List.mem_cons_of_mem _ hm))]

theorem joinSlash_cons_cons (p q : GoStr) (qs : List GoStr) :
    joinSlash (p :: q :: qs) = p ++ '/' :: joinSlash (q :: qs) := rfl

theorem splitOnChar_joinSlash (parts : List GoStr) (hne : parts ≠ [])
    (hsf : ∀ s ∈ parts, '/' ∉ s) : splitOnChar '/' (joinSlash parts) = parts := by
  induction parts with
  | nil => exact absurd rfl hne
  | cons p ps ih =>
    cases ps with
    | nil =>
      rw [show joinSlash [p] = p from rfl]
      exact splitOnChar_of_not_mem _ _ (hsf p (List.mem_cons_self p []))
    | cons q qs =>
      rw [joinSlash_cons_cons,
        splitOnChar_append_cons _ _ (hsf p (List.mem_cons_self p (q :: qs))),
        ih (by simp) (fun s hs => hsf s (List.mem_cons_of_mem p hs))]

theorem foldl_removeDotsStep_of_clean (l : List GoStr) (acc : List GoStr)
    (h : ∀ s ∈ l, s ≠ str "." ∧ s ≠ str "..") :
    List.foldl removeDotsStep acc l = acc ++ l := by
  induction l generalizing acc with
  | nil => simp
  | cons e l2 ih =>
    have he := h e (List.mem_cons_self e l2)
    rw [List.foldl_cons, show removeDotsStep acc e = acc ++ [e] from by
      simp [removeDotsStep, he.1, he.2],
      ih _ (fun s hs => h s (List.mem_cons_of_mem e hs))]
    simp

theorem mem_foldl_removeDotsStep (l : List GoStr) (acc : List GoStr) (s : GoStr)
    (hs : s ∈ List.foldl removeDotsStep acc l) :
    s ∈ acc ∨ (s ∈ l ∧ s ≠ str "." ∧ s ≠ str "..") := by
  induction l generalizing acc with
  | nil => exact Or.inl (by simpa using hs)
  | cons e l2 ih =>
    rw [List.foldl_cons] at hs
    rcases ih (removeDotsStep acc e) hs with h1 | h1
    · unfold removeDotsStep at h1
      by_cases hd : e = str "."
      · rw [if_pos hd] at h1; exact Or.inl h1
      · rw [if_neg hd] at h1
        by_cases hdd : e = str ".."
        · rw [if_pos hdd] at h1
          exact Or.inl (List.Sublist.subset (List.dropLast_sublist acc) h1)
        · rw [if_neg hdd] at h1
          rcases List.mem_append.1 h1 with h2 | h2
          · exact Or.inl h2
          · have h2e : s = e := by simpa using h2
            subst h2e
            exact Or.inr ⟨List.mem_cons_self s l2, hd, hdd⟩
    · exact Or.inr ⟨List.mem_cons_of_mem e h1.1, h1.2⟩

theorem getLastD_mem (l : List GoStr) (d : GoStr) (h : l ≠ []) : l.getLastD d ∈ l := by
  induction l generalizing d with
  | nil => exact absurd rfl h
  | cons a l2 ih =>
    cases hl : l2 with
    | nil => simp [List.getLastD]
    | cons b l3 =>
      rw [List.getLastD_cons]
      subst hl
      exact List.mem_cons_of_mem a (ih a (by simp))

theorem resolvePathCore_canonical (parts : List GoStr) (hne : parts ≠ [])
    (hsf : ∀ s ∈ parts, '/' ∉ s) (hdf : ∀ s ∈ parts, s ≠ str "." ∧ s ≠ str "..") :
    resolvePathCore ('/' :: joinSlash parts) = '/' :: joinSlash parts := by
  cases parts with
  | nil => exact absurd rfl hne
  | cons r rs =>
  have hsplit : splitOnChar '/' ('/' :: joinSlash (r :: rs)) = [] :: r :: rs := by
    rw [splitOnChar_cons, if_pos rfl, splitOnChar_joinSlash _ (by simp) hsf]
  have hclean : ∀ s ∈ ([] :: r :: rs : List GoStr), s ≠ str "." ∧ s ≠ str ".." := by
    intro s hs
    rcases List.mem_cons.1 hs with h | h
    · subst h; exact ⟨by decide, by decide⟩
    · exact hdf s h
  have hfold : List.foldl removeDotsStep [] ([] :: r :: rs) = [] :: r :: rs :=
    (foldl_removeDotsStep_of_clean _ _ hclean).trans (List.nil_append _)
  have hlast := hclean _ (getLastD_mem ([] :: r :: rs) [] (by simp))
  unfold resolvePathCore
  rw [if_neg (by simp : ¬('/' :: joinSlash (r :: rs) : GoStr) = [])]
  simp only [hsplit, hfold]
  rw [if_neg (by rintro (h | h); exact hlast.1 h; exact hlast.2 h)]
  rw [joinSlash_cons_cons, List.nil_append]
  simp [trimSlash]

theorem resolvePathCore_shape (p : GoStr) (hp : p ≠ []) :
    ∃ dst : List GoStr, resolvePathCore p = '/' :: trimSlash (joinSlash dst) ∧
      (∀ s ∈ dst, '/' ∉ s) ∧ (∀ s ∈ dst, s ≠ str "." ∧ s ≠ str "..") := by
  refine ⟨if (splitOnChar '/' p).getLastD [] = str "." ∨ (splitOnChar '/' p).getLastD [] = str ".."
    then (splitOnChar '/' p).foldl removeDotsStep [] ++ [[]]
    else (splitOnChar '/' p).foldl removeDotsStep [], ?_, ?_, ?_⟩
  · unfold resolvePathCore
    rw [if_neg hp]
  · intro s hs
    have hs2 : s ∈ (splitOnChar '/' p).foldl removeDotsStep [] ∨ s = [] := by
      by_cases hif : (splitOnChar '/' p).getLastD [] = str "." ∨
          (splitOnChar '/' p).getLastD [] = str ".."
      · rw [if_pos hif] at hs
        rcases List.mem_append.1 hs with h | h
        · exact Or.inl h
        · exact Or.inr (by simpa using h)
      · rw [if_neg hif] at hs
        exact Or.inl hs
    rcases hs2 with h | h
    · rcases mem_foldl_removeDotsStep _ _ _ h with h2 | h2
      · simp at h2
      · exact not_mem_of_mem_splitOnChar '/' p s h2.1
    · subst h; simp
  · intro s hs
    have hs2 : s ∈ (splitOnChar '/' p).foldl removeDotsStep [] ∨ s = [] := by
      by_cases hif : (splitOnChar '/' p).getLastD [] = str "." ∨
          (splitOnChar '/' p).getLastD [] = str ".."
      · rw [if_pos hif] at hs
        rcases List.mem_append.1 hs with h | h
        · exact Or.inl h
        · exact Or.inr (by simpa using h)
      · rw [if_neg hif] at hs
        exact Or.inl hs
    rcases hs2 with h | h
    · rcases mem_foldl_removeDotsStep _ _ _ h with h2 | h2
      · simp at h2
      · exact h2.2
    · subst h; exact ⟨by decide, by decide⟩

theorem resolvePathCore_idem (p : GoStr) :
    resolvePathCore (resolvePathCore p) = resolvePathCore p := by
  by_cases hp : p = []
  · subst hp; rfl
  obtain ⟨dst, hq, hsf, hdf⟩ := resolvePathCore_shape p hp
  rw [hq]
  cases dst with
  | nil => rfl
  | cons d ds =>
    cases d with
    | nil =>
      cases ds with
      | nil => rfl
      | cons e ds2 =>
        rw [joinSlash_cons_cons, List.nil_append,
          show trimSlash ('/' :: joinSlash (e :: ds2)) = joinSlash (e :: ds2) from by
            simp [trimSlash]]
        exact resolvePathCore_canonical (e :: ds2) (by simp)
          (fun s hs => hsf s (List.mem_cons_of_mem _ hs))
          (fun s hs => hdf s (List.mem_cons_of_mem _ hs))
    | cons c cs =>
      have hc : ¬ c = '/' := by
        intro e
        exact hsf (c :: cs) (List.mem_cons_self _ _) (e ▸ List.mem_cons_self c cs)
      have htrim : trimSlash (joinSlash ((c :: cs) :: ds)) = joinSlash ((c :: cs) :: ds) := by
        cases ds with
        | nil => rw [show joinSlash [c :: cs] = c :: cs from rfl]; simp [trimSlash, hc]
        | cons q qs => rw [joinSlash_cons_cons]; simp [trimSlash, hc]
      rw [htrim]
      exact resolvePathCore_canonical ((c :: cs) :: ds) (by simp) hsf hdf

theorem resolvePathCore_resolvePath (b r : GoStr) :
    resolvePathCore (resolvePath b r) = resolvePath b r :=
  resolvePathCore_idem _

theorem resolvePath_nil_ref (p : GoStr) : resolvePath p [] = resolvePathCore p := rfl

theorem resolveReference_absolute (u ref : GoUrl) (h : ref.scheme ≠ []) :
    resolveReference u ref = { ref with path := resolvePathCore ref.path } := by
  unfold resolveReference
  simp [h, resolvePath]

theorem resolveReference_path_fixed (u ref : GoUrl) :
    resolvePathCore ((resolveReference u ref).path) = (resolveReference u ref).path := by
  unfold resolveReference
  split_ifs <;> simp [resolvePathCore_resolvePath] <;> rfl

theorem wikiPageTitle_titleEncode (u : GoUrl) (t : GoStr)
    (h : u.rawQuery = str "title=" ++ queryEscapeList t) : wikiPageTitle u = some t := by
  unfold wikiPageTitle
  rw [h, parseQueryPairs_title_encode]
  simp [findTitleValues]

theorem normalizeUrl_eq (u b : GoUrl) (t : GoStr)
    (h : wikiPageTitle (resolveReference b u) = some t) :
    normalizeUrl u b = some (
      { (if t.length ≠ 0 then
          { resolveReference b u with rawQuery := str "title=" ++ queryEscapeList t }
         else resolveReference b u) with
        fragment := [], scheme := toLowerStr b.scheme,
        host := toLowerStr (resolveReference b u).host }) := by
  unfold normalizeUrl
  simp only [h]
  by_cases ht : t.length ≠ 0
  · simp only [if_pos ht]
  · simp only [if_neg ht]

/-- C5 (amended): `NormalizeUrl` is idempotent whenever the base URL has a
nonempty scheme, as every http/https crawl base does: normalizing the
result of a normalization is a no-op.  (The unamended claim fails for a
scheme-less base, see the counterexample.) -/
theorem normalizeUrl_idem_of_scheme (u b : GoUrl) (hb : b.scheme ≠ []) (n : GoUrl)
    (hn : normalizeUrl u b = some n) : normalizeUrl n b = some n := by
  cases hwt : wikiPageTitle (resolveReference b u) with
  | none =>
    have hcon : normalizeUrl u b = none := by
      unfold normalizeUrl
      simp only [hwt]
    rw [hcon] at hn
    exact absurd hn (by simp)
  | some t =>
    have hpathfix : resolvePathCore ((resolveReference b u).path) = (resolveReference b u).path :=
      resolveReference_path_fixed b u
    by_cases hte : t.length ≠ 0
    · have hn2 : n = { resolveReference b u with
          scheme := toLowerStr b.scheme,
          host := toLowerStr (resolveReference b u).host,
          rawQuery := str "title=" ++ queryEscapeList t,
          fragment := [] } := by
        rw [normalizeUrl_eq u b t hwt, if_pos hte] at hn
        exact (Option.some.inj hn).symm
      subst hn2
      have hNs : ({ resolveReference b u with
          scheme := toLowerStr b.scheme,
          host := toLowerStr (resolveReference b u).host,
          rawQuery := str "title=" ++ queryEscapeList t,
          fragment := [] } : GoUrl).scheme ≠ [] := by
        simpa [toLowerStr_eq_nil_iff] using hb
      have hres : resolveReference b { resolveReference b u with
          scheme := toLowerStr b.scheme,
          host := toLowerStr (resolveReference b u).host,
          rawQuery := str "title=" ++ queryEscapeList t,
          fragment := [] } = { resolveReference b u with
          scheme := toLowerStr b.scheme,
          host := toLowerStr (resolveReference b u).host,
          rawQuery := str "title=" ++ queryEscapeList t,
          fragment := [] } := by
        rw [resolveReference_absolute b _ hNs]
        simp only [hpathfix]
      have htN : wikiPageTitle (resolveReference b { resolveReference b u with
          scheme := toLowerStr b.scheme,
          host := toLowerStr (resolveReference b u).host,
          rawQuery := str "title=" ++ queryEscapeList t,
          fragment := [] }) = some t := by
        rw [hres]
        exact wikiPageTitle_titleEncode _ t rfl
      rw [normalizeUrl_eq _ b t htN, hres, if_pos hte]
      simp [toLowerStr_idem]
    · have hn2 : n = { resolveReference b u with
          scheme := toLowerStr b.scheme,
          host := toLowerStr (resolveReference b u).host,
          fragment := [] } := by
        rw [normalizeUrl_eq u b t hwt, if_neg hte] at hn
        exact (Option.some.inj hn).symm
      subst hn2
      have hNs : ({ resolveReference b u with
          scheme := toLowerStr b.scheme,
          host := toLowerStr (resolveReference b u).host,
          fragment := [] } : GoUrl).scheme ≠ [] := by
        simpa [toLowerStr_eq_nil_iff] using hb
      have hres : resolveReference b { resolveReference b u with
          scheme := toLowerStr b.scheme,
          host := toLowerStr (resolveReference b u).host,
          fragment := [] } = { resolveReference b u with
          scheme := toLowerStr b.scheme,
          host := toLowerStr (resolveReference b u).host,
          fragment := [] } := by
        rw [resolveReference_absolute b _ hNs]
        simp only [hpathfix]
      have htN : wikiPageTitle (resolveReference b { resolveReference b u with
          scheme := toLowerStr b.scheme,
          host := toLowerStr (resolveReference b u).host,
          fragment := [] }) = some t := by
        rw [hres]
        exact hwt
      rw [normalizeUrl_eq _ b t htN, hres, if_neg hte]
      simp [toLowerStr_idem]

theorem wikiPageTitle_congr (x y : GoUrl) (h : x.rawQuery = y.rawQuery) :
    wikiPageTitle x = wikiPageTitle y := by
  unfold wikiPageTitle
  rw [h]

theorem findTitleValues_of_find?_none (ps : List (GoStr × GoStr))
    (h : ps.find? (fun p => p.1 == str "title") = none) : findTitleValues ps = [] := by
  induction ps with
  | nil => rfl
  | cons q ps2 ih =>
    simp only [List.find?_cons] at h
    by_cases hq : (q.1 == str "title") = true
    · rw [hq] at h
      exact absurd h (by simp)
    · rw [show (q.1 == str "title") = false from by simpa using hq] at h
      unfold findTitleValues at ih ⊢
      simp only [List.filterMap_cons,
        if_neg (show ¬ q.1 = str "title" from by simpa using hq)]
      exact ih h

theorem findTitleValues_of_find?_some (ps : List (GoStr × GoStr)) (pr : GoStr × GoStr)
    (h : ps.find? (fun p => p.1 == str "title") = some pr) :
    ∃ rest, findTitleValues ps = pr.2 :: rest := by
  induction ps with
  | nil => exact absurd h (by simp)
  | cons q ps2 ih =>
    simp only [List.find?_cons] at h
    by_cases hq : (q.1 == str "title") = true
    · rw [hq] at h
      have hqpr : q = pr := by simpa using h
      subst hqpr
      refine ⟨findTitleValues ps2, ?_⟩
      unfold findTitleValues
      simp only [List.filterMap_cons,
        if_pos (show q.1 = str "title" from by simpa using hq)]
    · rw [show (q.1 == str "title") = false from by simpa using hq] at h
      obtain ⟨rest, hrest⟩ := ih h
      refine ⟨rest, ?_⟩
      unfold findTitleValues at hrest ⊢
      simp only [List.filterMap_cons,
        if_neg (show ¬ q.1 = str "title" from by simpa using hq)]
      exact hrest

theorem resolveReference_rawQuery_of_ne (u ref : GoUrl) (h : ref.rawQuery ≠ []) :
    (resolveReference u ref).rawQuery = ref.rawQuery := by
  unfold resolveReference
  split_ifs <;> simp_all

/-! ## Claim theorems: the URL pipeline -/

/-- C9: `WikiPageTitle` returns the value of the first `title` query
parameter when present and the empty string when the key is absent; when
parsing the query string fails it does not return a normal value but
panics (`none`). -/
theorem wikiPageTitle_spec (u : GoUrl) :
    (parseQueryPairs u.rawQuery = none → wikiPageTitle u = none) ∧
    (∀ ps, parseQueryPairs u.rawQuery = some ps →
      (ps.find? (fun p => p.1 == str "title") = none → wikiPageTitle u = some []) ∧
      (∀ pr, ps.find? (fun p => p.1 == str "title") = some pr →
        wikiPageTitle u = some pr.2)) := by
  refine ⟨?_, ?_⟩
  · intro h
    unfold wikiPageTitle
    simp only [h]
  · intro ps hps
    constructor
    · intro hf
      unfold wikiPageTitle
      simp only [hps, findTitleValues_of_find?_none ps hf]
    · intro pr hf
      obtain ⟨rest, hr⟩ := findTitleValues_of_find?_some ps pr hf
      unfold wikiPageTitle
      simp only [hps, hr]

/-- Witness for C9 at the repository's own test inputs: the title of
`http://testing.com?title=Page_Title` and a panic on `?title=%zz`. -/
theorem wikiPageTitle_spec_witness :
    wikiPageTitle ⟨str "http", [], str "testing.com", [], false, str "title=Page_Title", []⟩ =
      some (str "Page_Title") ∧
    wikiPageTitle ⟨str "http", [], str "t.com", [], false, str "title=%zz", []⟩ = none := by
  constructor
  · exact ((wikiPageTitle_spec
      ⟨str "http", [], str "testing.com", [], false, str "title=Page_Title", []⟩).2
      [(str "title", str "Page_Title")] (by decide)).2
      (str "title", str "Page_Title") (by decide)
  · exact (wikiPageTitle_spec
      ⟨str "http", [], str "t.com", [], false, str "title=%zz", []⟩).1 (by decide)

/-- C8: `ValidateLink` returns false when the link's string form does not
contain the base's string form; on a same-site link whose extracted title
begins with a configured excluded namespace prefix it returns false;
otherwise (in particular when no title parameter is present, i.e. the
extracted title is empty) it returns true. -/
theorem validateLink_spec (base link : GoUrl) :
    (goContains (urlString link) (urlString base) = false →
      validateLink base link = some false) ∧
    (∀ t, goContains (urlString link) (urlString base) = true →
      wikiPageTitle link = some t →
      ((∃ p ∈ ignoreList, p.isPrefixOf t = true) → validateLink base link = some false) ∧
      ((∀ p ∈ ignoreList, p.isPrefixOf t = false) → validateLink base link = some true)) ∧
    (goContains (urlString link) (urlString base) = true → wikiPageTitle link = some [] →
      validateLink base link = some true) := by
  refine ⟨?_, ?_, ?_⟩
  · intro h
    unfold validateLink
    rw [if_pos (by simp [h])]
  · intro t hc ht
    constructor
    · rintro ⟨p, hp, hpre⟩
      have hnil : ∀ q ∈ ignoreList, q ≠ ([] : GoStr) := by decide
      have htne : t ≠ [] := by
        rintro rfl
        cases p with
        | nil => exact hnil [] hp rfl
        | cons a as => simp [List.isPrefixOf] at hpre
      unfold validateLink
      rw [if_neg (by simp [hc])]
      simp only [ht]
      rw [if_pos ⟨List.length_pos.2 htne, List.any_eq_true.2 ⟨p, hp, hpre⟩⟩]
    · intro hall
      unfold validateLink
      rw [if_neg (by simp [hc])]
      simp only [ht]
      rw [if_neg ?hcond]
      case hcond =>
        rintro ⟨hlen, hany⟩
        obtain ⟨p, hp, hpre⟩ := List.any_eq_true.1 hany
        rw [hall p hp] at hpre
        exact Bool.false_ne_true hpre
  · intro hc ht
    unfold validateLink
    rw [if_neg (by simp [hc])]
    simp only [ht]
    rw [if_neg (by simp)]

/-- Witness for C8 at the repository's own test inputs: on base
`http://testing.com`, the link `?title=Help:Skip` is rejected, the link
`?title=Accept` is accepted, an off-site link is rejected, and a link with
no title parameter is accepted. -/
theorem validateLink_spec_witness :
    validateLink ⟨str "http", [], str "testing.com", [], false, [], []⟩
      ⟨str "http", [], str "testing.com", [], false, str "title=Help:Skip", []⟩ = some false ∧
    validateLink ⟨str "http", [], str "testing.com", [], false, [], []⟩
      ⟨str "http", [], str "testing.com", [], false, str "title=Accept", []⟩ = some true ∧
    validateLink ⟨str "http", [], str "testing.com", [], false, [], []⟩
      ⟨str "http", [], str "otherdomain.com", [], false, str "title=Accept", []⟩ = some false ∧
    validateLink ⟨str "http", [], str "testing.com", [], false, [], []⟩
      ⟨str "http", [], str "testing.com", [], false, str "notitle=1", []⟩ = some true := by
  refine ⟨?_, ?_, ?_, ?_⟩
  · exact ((validateLink_spec
      ⟨str "http", [], str "testing.com", [], false, [], []⟩
      ⟨str "http", [], str "testing.com", [], false, str "title=Help:Skip", []⟩).2.1
      (str "Help:Skip") (by decide) (by decide)).1
      ⟨str "Help:", by decide, by decide⟩
  · exact ((validateLink_spec
      ⟨str "http", [], str "testing.com", [], false, [], []⟩
      ⟨str "http", [], str "testing.com", [], false, str "title=Accept", []⟩).2.1
      (str "Accept") (by decide) (by decide)).2 (by decide)
  · exact (validateLink_spec
      ⟨str "http", [], str "testing.com", [], false, [], []⟩
      ⟨str "http", [], str "otherdomain.com", [], false, str "title=Accept", []⟩).1
      (by decide)
  · exact (validateLink_spec
      ⟨str "http", [], str "testing.com", [], false, [], []⟩
      ⟨str "http", [], str "testing.com", [], false, str "notitle=1", []⟩).2.2
      (by decide) (by decide)

/-- C10: a URL whose query string carries a `title` parameter with an
empty value is treated by the whole pipeline exactly as if the parameter
were absent: `WikiPageTitle` returns the empty string, `NormalizeUrl`
leaves the query string (other parameters included) unchanged, and
`ValidateLink` skips the namespace check, accepting iff the link is
same-site. -/
theorem emptyTitle_treated_as_absent (u b : GoUrl) (ps : List (GoStr × GoStr))
    (hps : parseQueryPairs u.rawQuery = some ps)
    (hfind : ps.find? (fun p => p.1 == str "title") = some (str "title", [])) :
    wikiPageTitle u = some [] ∧
    (∃ n, normalizeUrl u b = some n ∧ n.rawQuery = u.rawQuery) ∧
    validateLink b u = some (goContains (urlString u) (urlString b)) := by
  have hwt : wikiPageTitle u = some [] := by
    obtain ⟨rest, hr⟩ := findTitleValues_of_find?_some ps _ hfind
    unfold wikiPageTitle
    simp only [hps, hr]
  have hrq : u.rawQuery ≠ [] := by
    rintro hnil
    rw [hnil] at hps
    have h0 : parseQueryPairs ([] : GoStr) = some [] := rfl
    rw [h0] at hps
    have hps2 : ps = [] := (Option.some.inj hps).symm
    rw [hps2] at hfind
    simp at hfind
  have hclean : (resolveReference b u).rawQuery = u.rawQuery :=
    resolveReference_rawQuery_of_ne b u hrq
  have hwtc : wikiPageTitle (resolveReference b u) = some [] := by
    rw [wikiPageTitle_congr _ u hclean]
    exact hwt
  refine ⟨hwt, ⟨_, normalizeUrl_eq u b [] hwtc, ?_⟩, ?_⟩
  · simp [hclean]
  · cases hgc : goContains (urlString u) (urlString b) with
    | false =>
      unfold validateLink
      rw [if_pos (by simp [hgc])]
    | true =>
      unfold validateLink
      rw [if_neg (by simp [hgc])]
      simp only [hwt]
      rw [if_neg (by simp)]

/-- Witness for C10 at the input from the claim: `?title=&bad=2` on a
same-site link. -/
theorem emptyTitle_treated_as_absent_witness :
    wikiPageTitle ⟨str "http", [], str "t.com", str "/p", false, str "title=&bad=2", []⟩ =
      some [] ∧
    (∃ n, normalizeUrl ⟨str "http", [], str "t.com", str "/p", false, str "title=&bad=2", []⟩
        ⟨str "http", [], str "t.com", [], false, [], []⟩ = some n ∧
      n.rawQuery = str "title=&bad=2") ∧
    validateLink ⟨str "http", [], str "t.com", [], false, [], []⟩
      ⟨str "http", [], str "t.com", str "/p", false, str "title=&bad=2", []⟩ =
      some (goContains
        (urlString ⟨str "http", [], str "t.com", str "/p", false, str "title=&bad=2", []⟩)
        (urlString ⟨str "http", [], str "t.com", [], false, [], []⟩)) :=
  emptyTitle_treated_as_absent
    ⟨str "http", [], str "t.com", str "/p", false, str "title=&bad=2", []⟩
    ⟨str "http", [], str "t.com", [], false, [], []⟩
    [(str "title", []), (str "bad", str "2")] (by decide) (by decide)

/-- C6: when the URL resolved against the base carries a nonempty `title`
query parameter, `NormalizeUrl` rewrites the query string to exactly the
encoded `title` parameter: the rewritten query parses back to that single
parameter with the value preserved, and every other parameter is
discarded. -/
theorem normalizeUrl_title_query_rewrite (u b : GoUrl) (t : GoStr)
    (hw : wikiPageTitle (resolveReference b u) = some t) (ht : t ≠ []) :
    ∃ n, normalizeUrl u b = some n ∧
      n.rawQuery = str "title=" ++ queryEscapeList t ∧
      parseQueryPairs n.rawQuery = some [(str "title", t)] ∧
      wikiPageTitle n = some t := by
  have hte : t.length ≠ 0 := fun h => ht (List.length_eq_zero.1 h)
  have h1 := normalizeUrl_eq u b t hw
  rw [if_pos hte] at h1
  exact ⟨_, h1, rfl, parseQueryPairs_title_encode t, wikiPageTitle_titleEncode _ t rfl⟩

/-- Witness for C6: the repository's `Trim unwanted parameters` test
input, `http://testing.com/path?title=title&bad=2`. -/
theorem normalizeUrl_title_query_rewrite_witness :
    ∃ n, normalizeUrl
        ⟨str "http", [], str "testing.com", str "/path", false, str "title=title&bad=2", []⟩
        ⟨str "http", [], str "testing.com", [], false, [], []⟩ = some n ∧
      n.rawQuery = str "title=" ++ queryEscapeList (str "title") ∧
      parseQueryPairs n.rawQuery = some [(str "title", str "title")] ∧
      wikiPageTitle n = some (str "title") :=
  normalizeUrl_title_query_rewrite
    ⟨str "http", [], str "testing.com", str "/path", false, str "title=title&bad=2", []⟩
    ⟨str "http", [], str "testing.com", [], false, [], []⟩
    (str "title") (by decide) (by decide)

/-- C7: `NormalizeUrl` always yields a URL with no fragment, with the
lower-cased base scheme (whatever scheme the input declared), and with the
host lower-cased; the path is exactly the resolved path (its casing
untouched), and the query is either the resolved query unchanged or the
encoded nonempty title (whose value keeps its casing). -/
theorem normalizeUrl_components (u b n : GoUrl) (hn : normalizeUrl u b = some n) :
    n.fragment = [] ∧ n.scheme = toLowerStr b.scheme ∧
    n.host = toLowerStr (resolveReference b u).host ∧
    n.path = (resolveReference b u).path ∧
    (n.rawQuery = (resolveReference b u).rawQuery ∨
      ∃ t, wikiPageTitle (resolveReference b u) = some t ∧ t ≠ [] ∧
        n.rawQuery = str "title=" ++ queryEscapeList t) := by
  cases hwt : wikiPageTitle (resolveReference b u) with
  | none =>
    have hcon : normalizeUrl u b = none := by
      unfold normalizeUrl
      simp only [hwt]
    rw [hcon] at hn
    exact absurd hn (by simp)
  | some t =>
    by_cases hte : t.length ≠ 0
    · have hn2 : n = { resolveReference b u with
          scheme := toLowerStr b.scheme,
          host := toLowerStr (resolveReference b u).host,
          rawQuery := str "title=" ++ queryEscapeList t,
          fragment := [] } := by
        rw [normalizeUrl_eq u b t hwt, if_pos hte] at hn
        exact (Option.some.inj hn).symm
      subst hn2
      exact ⟨rfl, rfl, rfl, rfl,
        Or.inr ⟨t, rfl, fun h => hte (by rw [h]; rfl), rfl⟩⟩
    · have hn2 : n = { resolveReference b u with
          scheme := toLowerStr b.scheme,
          host := toLowerStr (resolveReference b u).host,
          fragment := [] } := by
        rw [normalizeUrl_eq u b t hwt, if_neg hte] at hn
        exact (Option.some.inj hn).symm
      subst hn2
      exact ⟨rfl, rfl, rfl, rfl, Or.inl rfl⟩

/-- Witness for C7: the repository's `Mismatched protocol` test input,
`https://testing.com/path` normalized against `http://testing.com`. -/
theorem normalizeUrl_components_witness :
    (⟨str "http", [], str "testing.com", str "/path", false, [], []⟩ : GoUrl).fragment = [] ∧
    (⟨str "http", [], str "testing.com", str "/path", false, [], []⟩ : GoUrl).scheme =
      toLowerStr (str "http") ∧
    (⟨str "http", [], str "testing.com", str "/path", false, [], []⟩ : GoUrl).host =
      toLowerStr (resolveReference ⟨str "http", [], str "testing.com", [], false, [], []⟩
        ⟨str "https", [], str "testing.com", str "/path", false, [], []⟩).host ∧
    (⟨str "http", [], str "testing.com", str "/path", false, [], []⟩ : GoUrl).path =
      (resolveReference ⟨str "http", [], str "testing.com", [], false, [], []⟩
        ⟨str "https", [], str "testing.com", str "/path", false, [], []⟩).path ∧
    ((⟨str "http", [], str "testing.com", str "/path", false, [], []⟩ : GoUrl).rawQuery =
      (resolveReference ⟨str "http", [], str "testing.com", [], false, [], []⟩
        ⟨str "https", [], str "testing.com", str "/path", false, [], []⟩).rawQuery ∨
      ∃ t, wikiPageTitle (resolveReference ⟨str "http", [], str "testing.com", [], false, [], []⟩
          ⟨str "https", [], str "testing.com", str "/path", false, [], []⟩) = some t ∧ t ≠ [] ∧
        (⟨str "http", [], str "testing.com", str "/path", false, [], []⟩ : GoUrl).rawQuery =
          str "title=" ++ queryEscapeList t) :=
  normalizeUrl_components
    ⟨str "https", [], str "testing.com", str "/path", false, [], []⟩
    ⟨str "http", [], str "testing.com", [], false, [], []⟩
    ⟨str "http", [], str "testing.com", str "/path", false, [], []⟩
    (by decide)

/-- Counterexample to C5 as stated: with a base URL whose scheme is empty
(`//example.com`), normalizing `x:/path` yields a scheme-less, host-less
URL, and normalizing that result again resolves it against the base host,
so the second normalization is not a no-op. -/
theorem normalizeUrl_idem_counterexample :
    normalizeUrl ⟨str "x", [], [], str "/path", false, [], []⟩
      ⟨[], [], str "example.com", [], false, [], []⟩ =
      some ⟨[], [], [], str "/path", false, [], []⟩ ∧
    normalizeUrl ⟨[], [], [], str "/path", false, [], []⟩
      ⟨[], [], str "example.com", [], false, [], []⟩ ≠
      some ⟨[], [], [], str "/path", false, [], []⟩ :=
  ⟨by decide, by decide⟩

/-- Witness for the amended C5 on the repository's `Relative Url` test
input: base `http://testing.com` (nonempty scheme), link `/path`. -/
theorem normalizeUrl_idem_of_scheme_witness :
    (⟨str "http", [], str "testing.com", [], false, [], []⟩ : GoUrl).scheme ≠ [] ∧
    normalizeUrl ⟨[], [], [], str "/path", false, [], []⟩
      ⟨str "http", [], str "testing.com", [], false, [], []⟩ =
      some ⟨str "http", [], str "testing.com", str "/path", false, [], []⟩ ∧
    normalizeUrl ⟨str "http", [], str "testing.com", str "/path", false, [], []⟩
      ⟨str "http", [], str "testing.com", [], false, [], []⟩ =
      some ⟨str "http", [], str "testing.com", str "/path", false, [], []⟩ :=
  ⟨by decide, by decide, normalizeUrl_idem_of_scheme
    ⟨[], [], [], str "/path", false, [], []⟩
    ⟨str "http", [], str "testing.com", [], false, [], []⟩ (by decide)
    ⟨str "http", [], str "testing.com", str "/path", false, [], []⟩ (by decide)⟩

/-! ## Claim theorems: FollowLink error handling and AddWork -/

/-- Counterexample to C2 as stated: a URL whose fetch returns status 500
ends up in Broken but also stays in Visited, because `FollowLink` claims
the URL in Visited before fetching.  The repository's own
`Record broken links` test expects the broken path to be counted among
the visited links. -/
theorem followLink_broken_visited_counterexample :
    followLink ⟨⟨str "http", [], str "w", [], false, [], []⟩,
        fun _ => .response 500 (str "u") [], fun _ => none⟩
      (str "u") ⟨[], []⟩ =
      some (⟨[str "u"], [str "u"]⟩, []) ∧
    str "u" ∈ [str "u"] :=
  ⟨by decide, by decide⟩

/-- C2 amended: when the fetch of a not-yet-visited URL fails at transport
level or returns a non-200 status, `FollowLink` records the URL in Broken,
leaves it recorded in Visited (it was claimed there before the fetch), and
extracts and follows no links (no new work is submitted). -/
theorem followLink_broken_fetch_spec (env : FollowEnv) (source : Link) (st : SeqState)
    (hv : source ∉ st.visited)
    (hfail : ∀ status finalUrl raws,
      env.fetch source = .response status finalUrl raws → status ≠ 200) :
    followLink env source st =
      some (⟨st.visited ++ [source], (LinkSet.add st.broken source).1⟩, []) := by
  have ha : LinkSet.add st.visited source = (st.visited ++ [source], true) := by
    unfold LinkSet.add
    rw [if_neg hv]
  unfold followLink
  cases hf : env.fetch source with
  | failure => simp [ha, hf]
  | response status finalUrl raws =>
    have h200 := hfail status finalUrl raws hf
    simp [ha, hf, h200]

/-- Witness for the amended C2: a fresh crawl state and a fetch oracle
answering 500. -/
theorem followLink_broken_fetch_spec_witness :
    followLink ⟨⟨str "http", [], str "w", [], false, [], []⟩,
        fun _ => .response 500 (str "u") [], fun _ => none⟩
      (str "u") ⟨[], []⟩ =
      some (⟨[] ++ [str "u"], (LinkSet.add [] (str "u")).1⟩, []) :=
  followLink_broken_fetch_spec
    ⟨⟨str "http", [], str "w", [], false, [], []⟩,
      fun _ => .response 500 (str "u") [], fun _ => none⟩
    (str "u") ⟨[], []⟩ (by decide)
    (fun status finalUrl raws h => by cases h; decide)

/-- C4: `AddWork` increments the pending counter first and then attempts
the channel send; when the channel can accept (buffer below capacity) the
link is appended with the counter incremented, and when the channel stays
full through the timeout the call panics (`none`) instead of dropping the
work or blocking forever. -/
theorem addWork_spec (q : WQ) (href : Link) :
    (q.todo.length < q.cap →
      WQ.addWork q href = some ⟨q.counter + 1, q.todo ++ [href], q.cap⟩) ∧
    (¬ q.todo.length < q.cap → WQ.addWork q href = none) := by
  constructor <;> intro h <;> simp [WQ.addWork, h]

/-- Witness for C4: a queue with room accepts; a full queue panics. -/
theorem addWork_spec_witness :
    WQ.addWork ⟨0, [], 2⟩ (str "a") = some ⟨1, [str "a"], 2⟩ ∧
    WQ.addWork ⟨5, [str "a", str "b"], 2⟩ (str "c") = none :=
  ⟨(addWork_spec ⟨0, [], 2⟩ (str "a")).1 (by decide),
   (addWork_spec ⟨5, [str "a", str "b"], 2⟩ (str "c")).2 (by decide)⟩

/-! ## Claim theorems: the concurrent crawl -/

theorem afterFetch_not_sending (source : Link) (o : FetchOutcome) :
    (match afterFetch source o with
     | Phase.sending _ _ => true
     | _ => false) = false := by
  cases o with
  | failure => rfl
  | response status finalUrl raws =>
    simp only [afterFetch]
    split_ifs <;> rfl

/-- C3: in every reachable state of the work queue, the `WaitGroup`
counter equals the queued links plus the in-flight units plus the
`AddWork` increments whose channel send is still pending; hence the
counter is never zero while any unit (which may still produce new work)
is in flight, and `Wait` closes the channel only in a state with no
queued and no in-flight work. -/
theorem workqueue_counter_invariant (env : CrawlEnv) (seed : Link) (s : CrawlState)
    (h : Reachable env seed s) :
    s.counter = s.todo.length + s.workers.length + sendingCount s.workers ∧
    (s.workers ≠ [] → 0 < s.counter) ∧
    (s.closed = true → s.workers = [] ∧ s.todo = []) := by
  suffices haux : s.counter = s.todo.length + s.workers.length + sendingCount s.workers ∧
      (s.closed = true → s.workers = [] ∧ s.todo = []) by
    refine ⟨haux.1, ?_, haux.2⟩
    intro hw
    rw [haux.1]
    have := List.length_pos.2 hw
    omega
  induction h with
  | refl => exact ⟨rfl, by intro hcl; exact absurd hcl (by simp [initState])⟩
  | tail s s' hr hstep ih =>
    obtain ⟨ih1, ih2⟩ := ih
    cases hstep with
    | pull l rest htodo =>
      refine ⟨?_, ?_⟩
      · rw [htodo] at ih1
        simp [sendingCount, List.countP_append, List.countP_cons] at ih1 ⊢
        omega
      · intro hcl
        rw [htodo] at ih2
        exact absurd (ih2 hcl).2 (by simp)
    | claimWin pre post l hw hadd =>
      refine ⟨?_, ?_⟩
      · rw [hw] at ih1
        simp [sendingCount, List.countP_append, List.countP_cons] at ih1 ⊢
        omega
      · intro hcl
        rw [hw] at ih2
        exact absurd (ih2 hcl).1 (by simp)
    | claimLose pre post l hw hadd =>
      refine ⟨?_, ?_⟩
      · rw [hw] at ih1
        simp [sendingCount, List.countP_append, List.countP_cons] at ih1 ⊢
        omega
      · intro hcl
        rw [hw] at ih2
        exact absurd (ih2 hcl).1 (by simp)
    | fetchStep pre post l hw =>
      refine ⟨?_, ?_⟩
      · rw [hw] at ih1
        simp [sendingCount, List.countP_append, List.countP_cons,
          afterFetch_not_sending] at ih1 ⊢
        omega
      · intro hcl
        rw [hw] at ih2
        exact absurd (ih2 hcl).1 (by simp)
    | brokenStep pre post l hw =>
      refine ⟨?_, ?_⟩
      · rw [hw] at ih1
        simp [sendingCount, List.countP_append, List.countP_cons] at ih1 ⊢
        omega
      · intro hcl
        rw [hw] at ih2
        exact absurd (ih2 hcl).1 (by simp)
    | redirectWin pre post l f raws hw hadd =>
      refine ⟨?_, ?_⟩
      · rw [hw] at ih1
        simp [sendingCount, List.countP_append, List.countP_cons] at ih1 ⊢
        omega
      · intro hcl
        rw [hw] at ih2
        exact absurd (ih2 hcl).1 (by simp)
    | redirectLose pre post l f raws hw hadd =>
      refine ⟨?_, ?_⟩
      · rw [hw] at ih1
        simp [sendingCount, List.countP_append, List.countP_cons] at ih1 ⊢
        omega
      · intro hcl
        rw [hw] at ih2
        exact absurd (ih2 hcl).1 (by simp)
    | processNil pre post l hw =>
      refine ⟨?_, ?_⟩
      · rw [hw] at ih1
        simp [sendingCount, List.countP_append, List.countP_cons] at ih1 ⊢
        omega
      · intro hcl
        rw [hw] at ih2
        exact absurd (ih2 hcl).1 (by simp)
    | processParseFail pre post l raw rest hw hparse =>
      refine ⟨?_, ?_⟩
      · rw [hw] at ih1
        simp [sendingCount, List.countP_append, List.countP_cons] at ih1 ⊢
        omega
      · intro hcl
        rw [hw] at ih2
        exact absurd (ih2 hcl).1 (by simp)
    | processSkip pre post l raw rest result href ok hw hparse hnorm hval hskip =>
      refine ⟨?_, ?_⟩
      · rw [hw] at ih1
        simp [sendingCount, List.countP_append, List.countP_cons] at ih1 ⊢
        omega
      · intro hcl
        rw [hw] at ih2
        exact absurd (ih2 hcl).1 (by simp)
    | processStartAdd pre post l raw rest result href hw hparse hnorm hval hnew =>
      refine ⟨?_, ?_⟩
      · rw [hw] at ih1
        simp [sendingCount, List.countP_append, List.countP_cons] at ih1 ⊢
        omega
      · intro hcl
        rw [hw] at ih2
        exact absurd (ih2 hcl).1 (by simp)
    | processSend pre post l href rest hw hcap =>
      refine ⟨?_, ?_⟩
      · rw [hw] at ih1
        simp [sendingCount, List.countP_append, List.countP_cons] at ih1 ⊢
        omega
      · intro hcl
        rw [hw] at ih2
        exact absurd (ih2 hcl).1 (by simp)
    | doneStep pre post l hw =>
      refine ⟨?_, ?_⟩
      · rw [hw] at ih1
        simp [sendingCount, List.countP_append, List.countP_cons] at ih1 ⊢
        omega
      · intro hcl
        rw [hw] at ih2
        exact absurd (ih2 hcl).1 (by simp)
    | waitClose hzero =>
      refine ⟨ih1, ?_⟩
      intro _
      rw [hzero] at ih1
      have hw0 : s.workers = [] := List.length_eq_zero.1 (by omega)
      have ht0 : s.todo = [] := List.length_eq_zero.1 (by omega)
      exact ⟨hw0, ht0⟩

/-- Witness for C3 at the initial state of a crawl (one submitted unit,
nothing in flight, channel open). -/
theorem workqueue_counter_invariant_witness :
    (initState (str "http://w/")).counter =
      (initState (str "http://w/")).todo.length +
      (initState (str "http://w/")).workers.length +
      sendingCount (initState (str "http://w/")).workers ∧
    ((initState (str "http://w/")).workers ≠ [] → 0 < (initState (str "http://w/")).counter) ∧
    ((initState (str "http://w/")).closed = true →
      (initState (str "http://w/")).workers = [] ∧ (initState (str "http://w/")).todo = []) :=
  workqueue_counter_invariant
    ⟨⟨str "http", [], str "w", [], false, [], []⟩, fun _ => FetchOutcome.failure,
      fun _ => none, 1000⟩
    (str "http://w/") (initState (str "http://w/")) Reachable.refl

theorem afterFetch_ne_fetching (source : Link) (o : FetchOutcome) :
    afterFetch source o ≠ Phase.fetching := by
  cases o with
  | failure => simp [afterFetch]
  | response status finalUrl raws =>
    simp only [afterFetch]
    split_ifs <;> simp

theorem fetchingCount_nil (v : Link) : fetchingCount v [] = 0 := rfl

theorem fetchingCount_append (v : Link) (a b : List Worker) :
    fetchingCount v (a ++ b) = fetchingCount v a + fetchingCount v b := by
  simp [fetchingCount, List.countP_append]

theorem fetchingCount_cons (v : Link) (w : Worker) (ws : List Worker) :
    fetchingCount v (w :: ws) =
      fetchingCount v ws + (if w.link = v ∧ w.phase = Phase.fetching then 1 else 0) := by
  by_cases h1 : w.link = v
  · by_cases h2 : w.phase = Phase.fetching
    · simp [fetchingCount, List.countP_cons, h1, h2]
    · simp [fetchingCount, List.countP_cons, h1, h2]
  · simp [fetchingCount, List.countP_cons, h1]

theorem count_append_singleton (v l : Link) (log : List Link) :
    List.count v (log ++ [l]) = List.count v log + (if l = v then 1 else 0) := by
  rw [List.count_append]
  by_cases h : l = v
  · simp [h, List.count_cons]
  · simp [h, List.count_cons]

/-- C1: in every reachable state of the crawl, each URL occurs at most
once in the fetch history: `FollowLink` fetches only after winning the
`Visited.Add` claim (returning immediately when `Add` reports the URL as
already present), and the claim for a given URL can be won at most once. -/
theorem crawl_fetches_each_url_at_most_once (env : CrawlEnv) (seed : Link) (s : CrawlState)
    (h : Reachable env seed s) (u : Link) : s.fetchLog.count u ≤ 1 := by
  have haux : ∀ v : Link, s.fetchLog.count v + fetchingCount v s.workers ≤
      (if v ∈ s.visited then 1 else 0) := by
    induction h with
    | refl => intro v; simp [initState, fetchingCount]
    | tail s s' hr hstep ih =>
      intro v
      have hiv := ih v
      cases hstep with
      | pull l rest htodo =>
        show List.count v s.fetchLog +
          fetchingCount v (s.workers ++ [⟨l, Phase.claiming⟩]) ≤
          (if v ∈ s.visited then 1 else 0)
        rw [fetchingCount_append, fetchingCount_cons, fetchingCount_nil,
          if_neg (fun hh => Phase.noConfusion hh.2)]
        by_cases hm : v ∈ s.visited
        · rw [if_pos hm] at hiv ⊢
          omega
        · rw [if_neg hm] at hiv ⊢
          omega
      | claimWin pre post l hw hadd =>
        show List.count v s.fetchLog +
          fetchingCount v (pre ++ ⟨l, Phase.fetching⟩ :: post) ≤
          (if v ∈ (LinkSet.add s.visited l).1 then 1 else 0)
        have hlv : l ∉ s.visited := by
          intro hmem
          unfold LinkSet.add at hadd
          rw [if_pos hmem] at hadd
          exact Bool.false_ne_true hadd
        have hadd1 : (LinkSet.add s.visited l).1 = s.visited ++ [l] := by
          unfold LinkSet.add
          rw [if_neg hlv]
        rw [hadd1, fetchingCount_append, fetchingCount_cons]
        rw [hw, fetchingCount_append, fetchingCount_cons,
          if_neg (fun hh => Phase.noConfusion hh.2)] at hiv
        by_cases hu : l = v
        · subst hu
          rw [if_pos ⟨rfl, rfl⟩, if_pos (by simp : l ∈ s.visited ++ [l])]
          rw [if_neg hlv] at hiv
          omega
        · rw [if_neg (fun hh => hu hh.1)]
          by_cases hm : v ∈ s.visited
          · rw [if_pos hm] at hiv
            rw [if_pos (List.mem_append.2 (Or.inl hm))]
            omega
          · rw [if_neg hm] at hiv
            rw [if_neg (fun hh => by
              rcases List.mem_append.1 hh with h2 | h2
              · exact hm h2
              · exact hu (List.mem_singleton.1 h2).symm)]
            omega
      | claimLose pre post l hw hadd =>
        show List.count v s.fetchLog +
          fetchingCount v (pre ++ ⟨l, Phase.finishing⟩ :: post) ≤
          (if v ∈ (LinkSet.add s.visited l).1 then 1 else 0)
        have hlv : l ∈ s.visited := by
          by_contra hmem
          unfold LinkSet.add at hadd
          rw [if_neg hmem] at hadd
          exact Bool.false_ne_true (hadd.symm)
        have hadd1 : (LinkSet.add s.visited l).1 = s.visited := by
          unfold LinkSet.add
          rw [if_pos hlv]
        rw [hadd1, fetchingCount_append, fetchingCount_cons,
          if_neg (fun hh => Phase.noConfusion hh.2)]
        rw [hw, fetchingCount_append, fetchingCount_cons,
          if_neg (fun hh => Phase.noConfusion hh.2)] at hiv
        by_cases hm : v ∈ s.visited
        · rw [if_pos hm] at hiv ⊢
          omega
        · rw [if_neg hm] at hiv ⊢
          omega
      | fetchStep pre post l hw =>
        show List.count v (s.fetchLog ++ [l]) +
          fetchingCount v (pre ++ ⟨l, afterFetch l (env.fetch l)⟩ :: post) ≤
          (if v ∈ s.visited then 1 else 0)
        rw [count_append_singleton, fetchingCount_append, fetchingCount_cons]
        rw [hw, fetchingCount_append, fetchingCount_cons] at hiv
        by_cases hu : l = v
        · subst hu
          rw [if_pos rfl, if_neg (fun hh => afterFetch_ne_fetching l (env.fetch l) hh.2)]
          rw [if_pos ⟨rfl, rfl⟩] at hiv
          by_cases hm : l ∈ s.visited
          · rw [if_pos hm] at hiv ⊢
            omega
          · rw [if_neg hm] at hiv ⊢
            omega
        · rw [if_neg hu, if_neg (fun hh => afterFetch_ne_fetching l (env.fetch l) hh.2)]
          rw [if_neg (fun hh => hu hh.1)] at hiv
          by_cases hm : v ∈ s.visited
          · rw [if_pos hm] at hiv ⊢
            omega
          · rw [if_neg hm] at hiv ⊢
            omega
      | brokenStep pre post l hw =>
        show List.count v s.fetchLog +
          fetchingCount v (pre ++ ⟨l, Phase.finishing⟩ :: post) ≤
          (if v ∈ s.visited then 1 else 0)
        rw [fetchingCount_append, fetchingCount_cons,
          if_neg (fun hh => Phase.noConfusion hh.2)]
        rw [hw, fetchingCount_append, fetchingCount_cons,
          if_neg (fun hh => Phase.noConfusion hh.2)] at hiv
        by_cases hm : v ∈ s.visited
        · rw [if_pos hm] at hiv ⊢
          omega
        · rw [if_neg hm] at hiv ⊢
          omega
      | redirectWin pre post l f raws hw hadd =>
        show List.count v s.fetchLog +
          fetchingCount v (pre ++ ⟨l, Phase.processing raws⟩ :: post) ≤
          (if v ∈ (LinkSet.add s.visited f).1 then 1 else 0)
        have hfv : f ∉ s.visited := by
          intro hmem
          unfold LinkSet.add at hadd
          rw [if_pos hmem] at hadd
          exact Bool.false_ne_true hadd
        have hadd1 : (LinkSet.add s.visited f).1 = s.visited ++ [f] := by
          unfold LinkSet.add
          rw [if_neg hfv]
        rw [hadd1, fetchingCount_append, fetchingCount_cons,
          if_neg (fun hh => Phase.noConfusion hh.2)]
        rw [hw, fetchingCount_append, fetchingCount_cons,
          if_neg (fun hh => Phase.noConfusion hh.2)] at hiv
        by_cases hm : v ∈ s.visited
        · rw [if_pos hm] at hiv
          rw [if_pos (List.mem_append.2 (Or.inl hm))]
          omega
        · rw [if_neg hm] at hiv
          by_cases hu : v = f
          · rw [if_pos (List.mem_append.2 (Or.inr (by simp [hu])))]
            omega
          · rw [if_neg (fun hh => by
              rcases List.mem_append.1 hh with h2 | h2
              · exact hm h2
              · exact hu (List.mem_singleton.1 h2))]
            omega
      | redirectLose pre post l f raws hw hadd =>
        show List.count v s.fetchLog +
          fetchingCount v (pre ++ ⟨l, Phase.finishing⟩ :: post) ≤
          (if v ∈ (LinkSet.add s.visited f).1 then 1 else 0)
        have hfv : f ∈ s.visited := by
          by_contra hmem
          unfold LinkSet.add at hadd
          rw [if_neg hmem] at hadd
          exact Bool.false_ne_true (hadd.symm)
        have hadd1 : (LinkSet.add s.visited f).1 = s.visited := by
          unfold LinkSet.add
          rw [if_pos hfv]
        rw [hadd1, fetchingCount_append, fetchingCount_cons,
          if_neg (fun hh => Phase.noConfusion hh.2)]
        rw [hw, fetchingCount_append, fetchingCount_cons,
          if_neg (fun hh => Phase.noConfusion hh.2)] at hiv
        by_cases hm : v ∈ s.visited
        · rw [if_pos hm] at hiv ⊢
          omega
        · rw [if_neg hm] at hiv ⊢
          omega
      | processNil pre post l hw =>
        show List.count v s.fetchLog +
          fetchingCount v (pre ++ ⟨l, Phase.finishing⟩ :: post) ≤
          (if v ∈ s.visited then 1 else 0)
        rw [fetchingCount_append, fetchingCount_cons,
          if_neg (fun hh => Phase.noConfusion hh.2)]
        rw [hw, fetchingCount_append, fetchingCount_cons,
          if_neg (fun hh => Phase.noConfusion hh.2)] at hiv
        by_cases hm : v ∈ s.visited
        · rw [if_pos hm] at hiv ⊢
          omega
        · rw [if_neg hm] at hiv ⊢
          omega
      | processParseFail pre post l raw rest hw hparse =>
        show List.count v s.fetchLog +
          fetchingCount v (pre ++ ⟨l, Phase.processing rest⟩ :: post) ≤
          (if v ∈ s.visited then 1 else 0)
        rw [fetchingCount_append, fetchingCount_cons,
          if_neg (fun hh => Phase.noConfusion hh.2)]
        rw [hw, fetchingCount_append, fetchingCount_cons,
          if_neg (fun hh => Phase.noConfusion hh.2)] at hiv
        by_cases hm : v ∈ s.visited
        · rw [if_pos hm] at hiv ⊢
          omega
        · rw [if_neg hm] at hiv ⊢
          omega
      | processSkip pre post l raw rest result href ok hw hparse hnorm hval hskip =>
        show List.count v s.fetchLog +
          fetchingCount v (pre ++ ⟨l, Phase.processing rest⟩ :: post) ≤
          (if v ∈ s.visited then 1 else 0)
        rw [fetchingCount_append, fetchingCount_cons,
          if_neg (fun hh => Phase.noConfusion hh.2)]
        rw [hw, fetchingCount_append, fetchingCount_cons,
          if_neg (fun hh => Phase.noConfusion hh.2)] at hiv
        by_cases hm : v ∈ s.visited
        · rw [if_pos hm] at hiv ⊢
          omega
        · rw [if_neg hm] at hiv ⊢
          omega
      | processStartAdd pre post l raw rest result href hw hparse hnorm hval hnew =>
        show List.count v s.fetchLog +
          fetchingCount v (pre ++ ⟨l, Phase.sending (urlString href) rest⟩ :: post) ≤
          (if v ∈ s.visited then 1 else 0)
        rw [fetchingCount_append, fetchingCount_cons,
          if_neg (fun hh => Phase.noConfusion hh.2)]
        rw [hw, fetchingCount_append, fetchingCount_cons,
          if_neg (fun hh => Phase.noConfusion hh.2)] at hiv
        by_cases hm : v ∈ s.visited
        · rw [if_pos hm] at hiv ⊢
          omega
        · rw [if_neg hm] at hiv ⊢
          omega
      | processSend pre post l href rest hw hcap =>
        show List.count v s.fetchLog +
          fetchingCount v (pre ++ ⟨l, Phase.processing rest⟩ :: post) ≤
          (if v ∈ s.visited then 1 else 0)
        rw [fetchingCount_append, fetchingCount_cons,
          if_neg (fun hh => Phase.noConfusion hh.2)]
        rw [hw, fetchingCount_append, fetchingCount_cons,
          if_neg (fun hh => Phase.noConfusion hh.2)] at hiv
        by_cases hm : v ∈ s.visited
        · rw [if_pos hm] at hiv ⊢
          omega
        · rw [if_neg hm] at hiv ⊢
          omega
      | doneStep pre post l hw =>
        show List.count v s.fetchLog + fetchingCount v (pre ++ post) ≤
          (if v ∈ s.visited then 1 else 0)
        rw [fetchingCount_append]
        rw [hw, fetchingCount_append, fetchingCount_cons,
          if_neg (fun hh => Phase.noConfusion hh.2)] at hiv
        by_cases hm : v ∈ s.visited
        · rw [if_pos hm] at hiv ⊢
          omega
        · rw [if_neg hm] at hiv ⊢
          omega
      | waitClose hzero =>
        exact hiv
  have h2 := haux u
  by_cases hm : u ∈ s.visited
  · rw [if_pos hm] at h2
    omega
  · rw [if_neg hm] at h2
    omega

/-- Witness for C1 on a small concrete run: from the initial state, after
pulling the seed, winning its Visited claim and fetching it (a failing
fetch), the fetch history holds the seed exactly once. -/
theorem crawl_fetches_each_url_at_most_once_witness :
    (List.count (str "s")
      (⟨[str "s"], [], [], 1, [⟨str "s", Phase.brokenMark⟩], [str "s"], false⟩ :
        CrawlState).fetchLog) ≤ 1 :=
  crawl_fetches_each_url_at_most_once
    ⟨⟨str "http", [], str "w", [], false, [], []⟩, fun _ => FetchOutcome.failure,
      fun _ => none, 1000⟩
    (str "s")
    ⟨[str "s"], [], [], 1, [⟨str "s", Phase.brokenMark⟩], [str "s"], false⟩
    (Reachable.tail _ _
      (Reachable.tail _ _
        (Reachable.tail _ _ Reachable.refl
          (Step.pull _ (str "s") [] rfl))
        (Step.claimWin _ [] [] (str "s") rfl (by decide)))
      (Step.fetchStep _ [] [] (str "s") rfl))
    (str "s")
